import Mathlib

/-!
Verification of the `Decoder` runtime data-validation library.

The TypeScript sources are shallowly embedded: JavaScript runtime values are
modelled by `JsValue`, JavaScript numbers by `JSNumber` (NaN, the two
infinities, and finite values as rationals — every finite IEEE double is a
decimal rational, so the model is a faithful superset), a decoder is a total
function from a `JsValue` to a `Result`.  The repository contains several
iterations of the library; each embedded definition notes the source file and
function it was translated from.
-/

set_option maxHeartbeats 1000000

namespace DecoderLib

/-- JavaScript numbers: NaN, the infinities, and finite values.  Finite IEEE
doubles are all decimal rationals, so `ℚ` is a faithful superset model. -/
inductive JSNumber : Type where
  | nan : JSNumber
  | inf : JSNumber
  | negInf : JSNumber
  | fin (q : ℚ) : JSNumber
deriving DecidableEq

/-- JavaScript strict equality `===` restricted to numbers: `NaN` is not equal
to anything (itself included); other numbers compare by value. -/
def jsEq : JSNumber → JSNumber → Bool
  | .nan, _ => false
  | _, .nan => false
  | .inf, .inf => true
  | .negInf, .negInf => true
  | .fin p, .fin q => decide (p = q)
  | _, _ => false

/-- `Math.floor`: identity on NaN and the infinities, floor on finite values. -/
def jsFloor : JSNumber → JSNumber
  | .nan => .nan
  | .inf => .inf
  | .negInf => .negInf
  | .fin q => .fin (⌊q⌋ : ℤ)

/-- The global `isNaN` applied to a number. -/
def jsIsNaN : JSNumber → Bool
  | .nan => true
  | _ => false

/-- The universe of JavaScript runtime values handled by the library: the
already-deserialized tree of scalars, sequences and key/value mappings. -/
inductive JsValue : Type where
  | undefinedVal : JsValue
  | null : JsValue
  | bool (b : Bool) : JsValue
  | num (n : JSNumber) : JsValue
  | str (s : String) : JsValue
  | arr (elems : List JsValue) : JsValue
  | obj (fields : List (String × JsValue)) : JsValue

/-- JavaScript `typeof`. -/
def jsTypeof : JsValue → String
  | .undefinedVal => "undefined"
  | .null => "object"
  | .bool _ => "boolean"
  | .num _ => "number"
  | .str _ => "string"
  | .arr _ => "object"
  | .obj _ => "object"

/-- `data === null`. -/
def isNullValue : JsValue → Bool
  | .null => true
  | _ => false

/-- The structural decoders' input check `typeof data === 'object' && data !== null`. -/
def isObjectLike (data : JsValue) : Bool :=
  jsTypeof data == "object" && !(isNullValue data)

/-! ### Decimal digit infrastructure

Used to model the ambient JavaScript number/string conversions (`String(n)`,
`parseFloat`, canonical array indices). -/

/-- The decimal digits of a natural number, most significant first. -/
def natDigits (n : ℕ) : List ℕ :=
  if h : n < 10 then [n] else natDigits (n / 10) ++ [n % 10]
termination_by n
decreasing_by
  exact Nat.div_lt_self (by omega) (by norm_num)

/-- Value of a digit list, most significant first. -/
def ofDigits (ds : List ℕ) : ℕ :=
  ds.foldl (fun a d => 10 * a + d) 0

/-- The character of a decimal digit. -/
def digitChar (d : ℕ) : Char := Char.ofNat (48 + d)

theorem ofDigits_from (ds : List ℕ) :
    ∀ a : ℕ, ds.foldl (fun a d => 10 * a + d) a = a * 10 ^ ds.length + ofDigits ds := by
  induction ds with
  | nil => intro a; simp [ofDigits]
  | cons d ds ih =>
      intro a
      have hd : ofDigits (d :: ds) = ds.foldl (fun a d => 10 * a + d) d := by
        simp [ofDigits]
      rw [List.foldl_cons, ih (10 * a + d), hd, ih d, List.length_cons]
      ring

theorem ofDigits_append (xs ys : List ℕ) :
    ofDigits (xs ++ ys) = ofDigits xs * 10 ^ ys.length + ofDigits ys := by
  unfold ofDigits
  rw [List.foldl_append]
  exact ofDigits_from ys (List.foldl (fun a d => 10 * a + d) 0 xs)

theorem natDigits_ne_nil (n : ℕ) : natDigits n ≠ [] := by
  rw [natDigits]
  split <;> simp

theorem natDigits_lt (n : ℕ) : ∀ d ∈ natDigits n, d < 10 := by
  induction n using Nat.strong_induction_on with
  | _ n ih =>
      rw [natDigits]
      split
      · intro d hd
        simp at hd
        omega
      · intro d hd
        rw [List.mem_append] at hd
        rcases hd with hd | hd
        · exact ih (n / 10) (Nat.div_lt_self (by omega) (by norm_num)) d hd
        · simp at hd
          omega

theorem ofDigits_natDigits (n : ℕ) : ofDigits (natDigits n) = n := by
  induction n using Nat.strong_induction_on with
  | _ n ih =>
      rw [natDigits]
      split
      · simp [ofDigits]
      · rw [ofDigits_append, ih (n / 10) (Nat.div_lt_self (by omega) (by norm_num))]
        simp [ofDigits]
        omega

theorem ofDigits_replicate_zero (k : ℕ) (ds : List ℕ) :
    ofDigits (List.replicate k 0 ++ ds) = ofDigits ds := by
  induction k with
  | zero => simp
  | succ k ih =>
      rw [List.replicate_succ]
      simpa [ofDigits] using ih

theorem digitChar_isDigit {d : ℕ} (h : d < 10) : (digitChar d).isDigit = true := by
  interval_cases d <;> decide

theorem digitChar_toNat {d : ℕ} (h : d < 10) : (digitChar d).toNat = 48 + d := by
  interval_cases d <;> decide

theorem digitChar_injOn {d e : ℕ} (hd : d < 10) (he : e < 10)
    (h : digitChar d = digitChar e) : d = e := by
  have := congrArg Char.toNat h
  rw [digitChar_toNat hd, digitChar_toNat he] at this
  omega

/-- Rendering of a natural number in decimal, modelling JavaScript
`ToString` applied to an array index / integer. -/
def natStr (n : ℕ) : String := String.mk ((natDigits n).map digitChar)

theorem map_digitChar_inj : ∀ {xs ys : List ℕ}, (∀ d ∈ xs, d < 10) → (∀ d ∈ ys, d < 10) →
    xs.map digitChar = ys.map digitChar → xs = ys := by
  intro xs
  induction xs with
  | nil =>
      intro ys _ _ h
      cases ys with
      | nil => rfl
      | cons e es => simp at h
  | cons d ds ih =>
      intro ys hxs hys h
      cases ys with
      | nil => simp at h
      | cons e es =>
          simp only [List.map_cons, List.cons.injEq] at h
          have hde : d = e :=
            digitChar_injOn (hxs d (by simp)) (hys e (by simp)) h.1
          have hrest : ds = es :=
            ih (fun x hx => hxs x (by simp [hx])) (fun x hx => hys x (by simp [hx])) h.2
          rw [hde, hrest]

theorem natStr_injective : Function.Injective natStr := by
  intro m n h
  have hdata : (natDigits m).map digitChar = (natDigits n).map digitChar := by
    have h2 := congrArg String.data h
    simpa [natStr] using h2
  have hdig : natDigits m = natDigits n :=
    map_digitChar_inj (natDigits_lt m) (natDigits_lt n) hdata
  calc m = ofDigits (natDigits m) := (ofDigits_natDigits m).symm
    _ = ofDigits (natDigits n) := by rw [hdig]
    _ = n := ofDigits_natDigits n

/-- Property read `data[key]`, for the accesses the structural decoders
perform: objects look up their first binding, arrays expose their canonical
numeric indices and `length`, every other access yields `undefined`. -/
def getProp (data : JsValue) (key : String) : JsValue :=
  match data with
  | .obj fields =>
      match fields.find? (fun kv => kv.1 == key) with
      | some kv => kv.2
      | none => .undefinedVal
  | .arr elems =>
      match (List.range elems.length).find? (fun i => natStr i == key) with
      | some i => elems.getD i .undefinedVal
      | none => if key == "length" then .num (.fin elems.length) else .undefinedVal
  | _ => .undefinedVal

/-- The enumerable own keys iterated by `for (const key in data)`: insertion
order for plain objects, index order for arrays. -/
def ownKeys : JsValue → List String
  | .obj fields => fields.map Prod.fst
  | .arr elems => (List.range elems.length).map natStr
  | _ => []

theorem getProp_arr_natStr (elems : List JsValue) (i : ℕ) (h : i < elems.length) :
    getProp (.arr elems) (natStr i) = elems.getD i .undefinedVal := by
  simp only [getProp]
  have hsome : (List.range elems.length).find? (fun j => natStr j == natStr i) = some i := by
    cases hf : (List.range elems.length).find? (fun j => natStr j == natStr i) with
    | none =>
        exfalso
        have := List.find?_eq_none.mp hf i (by simpa using h)
        simp at this
    | some j =>
        have hp := List.find?_some hf
        have : natStr j = natStr i := by simpa using hp
        rw [natStr_injective this]
  rw [hsome]

/-- `Result` from `src/result.ts`: the two-variant outcome carrier.  The class
wraps the discriminated union in its `get` field; the union is modelled
directly. -/
inductive Result (α ε : Type) : Type where
  | ok (value : α) : Result α ε
  | fail (error : ε) : Result α ε

/-- `Result.map`. -/
def Result.map (f : α → β) : Result α ε → Result β ε
  | .ok v => .ok (f v)
  | .fail e => .fail e

/-- `Result.mapError`. -/
def Result.mapError (f : ε → ζ) : Result α ε → Result α ζ
  | .ok v => .ok v
  | .fail e => .fail (f e)

/-- `Result.isOk`. -/
def Result.isOk : Result α ε → Bool
  | .ok _ => true
  | .fail _ => false

/-- `Result.isFail`. -/
def Result.isFail : Result α ε → Bool
  | .ok _ => false
  | .fail _ => true

/-- The body of the `reduce` inside `Result.merge` (src/result.ts lines
37–56); `i` is the element index supplied by `reduce`. -/
def Result.mergeGo (addErrorIndex : ℕ → ε → ε) :
    ℕ → Result (List α) (List ε) → List (Result α ε) → Result (List α) (List ε)
  | _, p, [] => p
  | i, .ok vs, c :: cs =>
      match c with
      | .ok v => Result.mergeGo addErrorIndex (i + 1) (.ok (vs ++ [v])) cs
      | .fail e => Result.mergeGo addErrorIndex (i + 1) (.fail [addErrorIndex i e]) cs
  | i, .fail es, c :: cs =>
      match c with
      | .ok _ => Result.mergeGo addErrorIndex (i + 1) (.fail es) cs
      | .fail e => Result.mergeGo addErrorIndex (i + 1) (.fail (es ++ [addErrorIndex i e])) cs

/-- `Result.merge` from `src/result.ts`: `values.reduce(..., Result.ok([]))`. -/
def Result.merge (values : List (Result α ε)) (addErrorIndex : ℕ → ε → ε) :
    Result (List α) (List ε) :=
  Result.mergeGo addErrorIndex 0 (.ok []) values

/-- `DecodeError` from `src/error.ts`: an object keyed by field names, a
single `{index?, error, value?}` record, an `[index, error]` pair, or a
list of errors. -/
inductive DecodeError : Type where
  | keyed (fields : List (String × DecodeError)) : DecodeError
  | single (index : Option ℕ) (error : String ⊕ DecodeError) (value : Option JsValue) : DecodeError
  | indexed (index : ℕ) (error : DecodeError) : DecodeError
  | elist (errors : List DecodeError) : DecodeError

/-- `makeSingleError` from `src/error.ts`. -/
def makeSingleError (error : String) (value : JsValue) : DecodeError :=
  .single none (.inl error) (some value)

/-- `formatIndex` from `src/error.ts`: records whose `error` field is a string
get the index inline; anything else is wrapped as an `[index, error]` pair. -/
def formatIndex (index : ℕ) (error : DecodeError) : DecodeError :=
  match error with
  | .single _ (.inl msg) v => .single (some index) (.inl msg) v
  | e => .indexed index e

/-- A decoder (decoder.ts): the wrapped `(data: any) => Result<T, DecodeError>`
function.  Combinators build new functions from old ones, exactly as the class
methods wrap `this.decoder`. -/
def Decoder (α : Type) : Type := JsValue → Result α DecodeError

/-- `Decoder.ok`: a decoder that always succeeds with `value`. -/
def Decoder.ok (value : α) : Decoder α := fun _ => .ok value

/-- `Decoder.fail`: always fails with `{ error: message }` (no `value` field). -/
def Decoder.fail (message : String) : Decoder α :=
  fun _ => .fail (.single none (.inl message) none)

/-- `run` (decoder.ts line 146): `this.decoder(data).get`. -/
def Decoder.run (d : Decoder α) (data : JsValue) : Result α DecodeError := d data

/-- `ValidationFailedError` (decoder.ts lines 16–23): the exception class
thrown by `guard`, carrying the structured decode error in its `error` field. -/
structure ValidationFailedError : Type where
  error : DecodeError

/-- `guard` (decoder.ts lines 152–157): return the decoded value, or throw a
`ValidationFailedError` wrapping the structured error.  The JavaScript
`throw` is modelled by the `Except` error channel. -/
def Decoder.guard (d : Decoder α) (data : JsValue) : Except ValidationFailedError α :=
  match d data with
  | .ok v => .ok v
  | .fail e => .error ⟨e⟩

/-- `then` (decoder.ts lines 178–187): on OK(v) obtain the dependent decoder
`f v` and run it against the original input; on FAIL re-wrap the same error. -/
def Decoder.thenD (d : Decoder α) (dependentDecoder : α → Decoder β) : Decoder β :=
  fun data =>
    match d data with
    | .ok v => dependentDecoder v data
    | .fail e => .fail e

/-- `satisfy` (decoder.ts lines 203–219), built on `then`; a missing or empty
failure message falls back to the generic one (JavaScript truthiness). -/
def Decoder.satisfy (d : Decoder α) (predicate : α → Bool)
    (failureMessage : Option String) : Decoder α :=
  Decoder.thenD d (fun value =>
    if predicate value then Decoder.ok value
    else
      Decoder.fail
        (match failureMessage with
         | some msg => if msg == "" then "Not fulfilled predicate" else msg
         | none => "Not fulfilled predicate"))

/-- One step of `createOneOf`'s error accumulation: a branch error that is an
array is spread into the accumulator, anything else is pushed. -/
def spreadError : DecodeError → List DecodeError
  | .elist es => es
  | e => [e]

/-- The loop of `Decoder.createOneOf` (decoder.ts lines 82–98). -/
def createOneOfGo (data : JsValue) :
    List (Decoder α) → List DecodeError → Result α DecodeError
  | [], errors => .fail (.elist errors)
  | d :: ds, errors =>
      match d data with
      | .ok v => .ok v
      | .fail e => createOneOfGo data ds (errors ++ spreadError e)

/-- `Decoder.createOneOf` (decoder.ts lines 82–98): try the decoders in order
on the same input, return the first OK, otherwise accumulate all branch
errors. -/
def createOneOf (decoders : List (Decoder α)) : Decoder α := fun data =>
  createOneOfGo data decoders []

/-- `Decoder.field` (decoder.ts lines 502–509). -/
def Decoder.field (key : String) (decoder : Decoder α) : Decoder α := fun data =>
  if isObjectLike data then
    Result.mapError (fun e => .keyed [(key, e)]) (decoder (getProp data key))
  else .fail (makeSingleError "Not an object" data)

/-- The `for (key in object)` loop of `Decoder.object` (decoder.ts lines
619–629), accumulating the output record and the keyed error object. -/
def objectGo (data : JsValue) :
    List (String × Decoder α) → List (String × α) → List (String × DecodeError) →
    Result (List (String × α)) DecodeError
  | [], obj, errors => if errors.isEmpty then .ok obj else .fail (.keyed errors)
  | (key, d) :: shape, obj, errors =>
      match d (getProp data key) with
      | .ok v => objectGo data shape (obj ++ [(key, v)]) errors
      | .fail e => objectGo data shape obj (errors ++ [(key, e)])

/-- `Decoder.object` (decoder.ts lines 611–635).  The mapped-type shape is
modelled as an ordered association list of keys and decoders; the decoded
record as an ordered association list of keys and values. -/
def Decoder.object (shape : List (String × Decoder α)) :
    Decoder (List (String × α)) := fun data =>
  if isObjectLike data then objectGo data shape [] []
  else .fail (makeSingleError "Not an object" data)

/-- The `for (key in data)` loop of `Decoder.dict` (decoder.ts lines 563–573). -/
def dictGo (d : Decoder α) (data : JsValue) :
    List String → List (String × α) → List (String × DecodeError) →
    Result (List (String × α)) DecodeError
  | [], decoded, errors => if errors.isEmpty then .ok decoded else .fail (.keyed errors)
  | key :: keys, decoded, errors =>
      match d (getProp data key) with
      | .ok v => dictGo d data keys (decoded ++ [(key, v)]) errors
      | .fail e => dictGo d data keys decoded (errors ++ [(key, e)])

/-- `Decoder.dict` (decoder.ts lines 556–580): decode every enumerable key's
value, collecting per-key failures. -/
def Decoder.dict (d : Decoder α) : Decoder (List (String × α)) := fun data =>
  if isObjectLike data then dictGo d data (ownKeys data) [] []
  else .fail (makeSingleError "Not an object" data)

/-! ### The number decoder, its string grammar, and the ambient conversions -/

/-- `span` on digit characters: the leading digit run and the remainder. -/
def spanDigits (cs : List Char) : List Char × List Char :=
  (cs.takeWhile Char.isDigit, cs.dropWhile Char.isDigit)

/-- The regex character class `[E|e]` (it contains the literal bar). -/
def isExpChar (c : Char) : Bool := c == 'E' || c == '|' || c == 'e'

/-- The regex character class `[+|-]` (it contains the literal bar). -/
def isSignChar (c : Char) : Bool := c == '+' || c == '|' || c == '-'

/-- Matches the optional exponent `(?:[E|e][+|-]?\d+)?` followed by the end
of the string. -/
def matchExpTail : List Char → Bool
  | [] => true
  | c :: rest =>
      isExpChar c &&
        (let rest2 :=
           match rest with
           | c2 :: rr => if isSignChar c2 then rr else c2 :: rr
           | [] => []
         let p := spanDigits rest2
         !p.1.isEmpty && p.2.isEmpty)

/-- Matches `(?:\d+|\d*\.\d+)(?:[E|e][+|-]?\d+)?` against the whole string. -/
def matchMantissa (cs : List Char) : Bool :=
  let p := spanDigits cs
  match p.2 with
  | c :: r2 =>
      if c == '.' then
        let q := spanDigits r2
        !q.1.isEmpty && matchExpTail q.2
      else !p.1.isEmpty && matchExpTail p.2
  | [] => !p.1.isEmpty && matchExpTail []

/-- Matches `(?:(?:\d+|\d*\.\d+)(?:[E|e][+|-]?\d+)?|Infinity)`. -/
def matchBody (cs : List Char) : Bool :=
  cs == "Infinity".data || matchMantissa cs

/-- Matches `-?` followed by `matchBody`. -/
def matchSigned : List Char → Bool
  | c :: rest => if c == '-' then matchBody rest else matchBody (c :: rest)
  | [] => matchBody []

/-- `isStringNumber` (decoder.ts lines 8–13): a non-empty string fully
matching `^(?:NaN|-?(?:(?:\d+|\d*\.\d+)(?:[E|e][+|-]?\d+)?|Infinity))$`. -/
def isStringNumber (s : String) : Bool :=
  decide (s.length ≠ 0) && (s.data == "NaN".data || matchSigned s.data)

/-- Numeric value of a digit-character run, most significant first. -/
def charsVal (cs : List Char) : ℕ :=
  cs.foldl (fun a c => 10 * a + (c.toNat - 48)) 0

/-- Boolean prefix test on character lists. -/
def charsPrefixOf : List Char → List Char → Bool
  | [], _ => true
  | _ :: _, [] => false
  | a :: as, b :: bs => a == b && charsPrefixOf as bs

/-- The exponent part of a decimal literal for `parseFloat`: `e`/`E`, an
optional sign and digits; when the digits are absent the exponent is not part
of the literal and contributes 0. -/
def parseExp (cs : List Char) : ℤ :=
  match cs with
  | c :: rest =>
      if c == 'e' || c == 'E' then
        let signed : Bool × List Char :=
          match rest with
          | c2 :: rr =>
              if c2 == '+' then (false, rr)
              else if c2 == '-' then (true, rr)
              else (false, c2 :: rr)
          | [] => (false, [])
        let p := spanDigits signed.2
        if p.1.isEmpty then 0
        else if signed.1 then -(charsVal p.1 : ℤ) else (charsVal p.1 : ℤ)
      else 0
  | [] => 0

/-- The unsigned part of `parseFloat`'s `StrDecimalLiteral` grammar. -/
def parseFloatBody (neg : Bool) (cs : List Char) : JSNumber :=
  if charsPrefixOf "Infinity".data cs then (if neg then .negInf else .inf)
  else
    let ip := spanDigits cs
    let fr : List Char × List Char :=
      match ip.2 with
      | c :: rr => if c == '.' then spanDigits rr else ([], c :: rr)
      | [] => ([], [])
    if ip.1.isEmpty && fr.1.isEmpty then .nan
    else
      let mant : ℚ := (charsVal ip.1 : ℚ) + (charsVal fr.1 : ℚ) / 10 ^ fr.1.length
      let v : ℚ := mant * (10 : ℚ) ^ parseExp fr.2
      .fin (if neg then -v else v)

/-- The optional sign of `parseFloat`'s `StrDecimalLiteral` grammar. -/
def parseFloatSigned : List Char → JSNumber
  | c :: rest =>
      if c == '+' then parseFloatBody false rest
      else if c == '-' then parseFloatBody true rest
      else parseFloatBody false (c :: rest)
  | [] => parseFloatBody false []

/-- Model of the ECMAScript `parseFloat` builtin: skip leading whitespace and
evaluate the longest `StrDecimalLiteral` prefix (optional sign, `Infinity`, or
digits with optional fraction and exponent), `NaN` when no prefix parses. -/
def parseFloat (s : String) : JSNumber :=
  parseFloatSigned (s.data.dropWhile Char.isWhitespace)

/-- `Decoder.number` (decoder.ts lines 231–242): a number other than NaN is
returned unchanged; a string matching the numeric grammar is parsed with
`parseFloat`; everything else fails. -/
def Decoder.number : Decoder JSNumber := fun data =>
  match data with
  | .num n =>
      if !jsIsNaN n then .ok n else .fail (makeSingleError "Not a number" data)
  | .str s =>
      if isStringNumber s then .ok (parseFloat s)
      else .fail (makeSingleError "Not a number" data)
  | _ => .fail (makeSingleError "Not a number" data)

/-- `isInteger` (decoder.ts line 7): `Math.floor(n) === n && n !== Infinity`. -/
def isInteger (n : JSNumber) : Bool :=
  jsEq (jsFloor n) n && !(jsEq n .inf)

/-- `Decoder.timestamp` (decoder.ts lines 284–287): the number decoder
refined by the `isInteger` predicate. -/
def Decoder.timestamp : Decoder JSNumber :=
  Decoder.satisfy Decoder.number isInteger (some "Not a timestamp")

/-- The decimal digits of `m / 10^k` (for `m = n ≥ 0`): the digits of `n`
left-padded with zeroes so at least one digit precedes the point. -/
def padDigits (n k : ℕ) : List ℕ :=
  List.replicate (k + 1 - (natDigits n).length) 0 ++ natDigits n

/-- Digits before the decimal point. -/
def intPart (n k : ℕ) : List ℕ :=
  (padDigits n k).take ((padDigits n k).length - k)

/-- Digits after the decimal point. -/
def fracPart (n k : ℕ) : List ℕ :=
  (padDigits n k).drop ((padDigits n k).length - k)

/-- The character rendering of `n / 10^k` in plain decimal notation. -/
def decChars (n k : ℕ) : List Char :=
  if k = 0 then (natDigits n).map digitChar
  else (intPart n k).map digitChar ++ '.' :: (fracPart n k).map digitChar

/-- Modelled from the spec: the canonical string rendering `String(n)` of a
finite number (the host `stringify` builtin is not part of the sources).
Every finite JavaScript number is a decimal rational `m / 10^k`; its canonical
rendering is the plain decimal positional notation produced here (taking the
minimal such `k`). -/
def stringify (m : ℤ) (k : ℕ) : String :=
  String.mk ((if m < 0 then ['-'] else []) ++ decChars m.natAbs k)

/-! ### Lemmas: digit runs, the padded decimal expansion, and the grammar -/

theorem takeWhile_append_all {α : Type} (p : α → Bool) (xs ys : List α)
    (h : ∀ x ∈ xs, p x = true) :
    (xs ++ ys).takeWhile p = xs ++ ys.takeWhile p := by
  induction xs with
  | nil => simp
  | cons a xs ih =>
      have ha : p a = true := h a (by simp)
      simp [List.takeWhile_cons, ha, ih (fun x hx => h x (by simp [hx]))]

theorem dropWhile_append_all {α : Type} (p : α → Bool) (xs ys : List α)
    (h : ∀ x ∈ xs, p x = true) :
    (xs ++ ys).dropWhile p = ys.dropWhile p := by
  induction xs with
  | nil => simp
  | cons a xs ih =>
      have ha : p a = true := h a (by simp)
      simp [List.dropWhile_cons, ha, ih (fun x hx => h x (by simp [hx]))]

theorem mem_map_digitChar_isDigit {ds : List ℕ} (h : ∀ d ∈ ds, d < 10) :
    ∀ c ∈ ds.map digitChar, c.isDigit = true := by
  intro c hc
  rcases List.mem_map.mp hc with ⟨d, hd, rfl⟩
  exact digitChar_isDigit (h d hd)

theorem spanDigits_map_append {ds : List ℕ} (h : ∀ d ∈ ds, d < 10)
    {c : Char} (hc : c.isDigit = false) (rest : List Char) :
    spanDigits (ds.map digitChar ++ c :: rest) = (ds.map digitChar, c :: rest) := by
  unfold spanDigits
  rw [takeWhile_append_all _ _ _ (mem_map_digitChar_isDigit h),
    dropWhile_append_all _ _ _ (mem_map_digitChar_isDigit h)]
  simp [List.takeWhile_cons, List.dropWhile_cons, hc]

theorem takeWhile_all {α : Type} (p : α → Bool) :
    ∀ (xs : List α), (∀ x ∈ xs, p x = true) → xs.takeWhile p = xs := by
  intro xs
  induction xs with
  | nil => intro _; rfl
  | cons a xs ih =>
      intro h
      have ha : p a = true := h a (by simp)
      simp [List.takeWhile_cons, ha, ih (fun x hx => h x (by simp [hx]))]

theorem dropWhile_all {α : Type} (p : α → Bool) :
    ∀ (xs : List α), (∀ x ∈ xs, p x = true) → xs.dropWhile p = [] := by
  intro xs
  induction xs with
  | nil => intro _; rfl
  | cons a xs ih =>
      intro h
      have ha : p a = true := h a (by simp)
      simp [List.dropWhile_cons, ha, ih (fun x hx => h x (by simp [hx]))]

theorem spanDigits_map {ds : List ℕ} (h : ∀ d ∈ ds, d < 10) :
    spanDigits (ds.map digitChar) = (ds.map digitChar, []) := by
  unfold spanDigits
  rw [takeWhile_all _ _ (mem_map_digitChar_isDigit h),
    dropWhile_all _ _ (mem_map_digitChar_isDigit h)]

theorem charsVal_foldl_map {ds : List ℕ} (h : ∀ d ∈ ds, d < 10) :
    ∀ a : ℕ, (ds.map digitChar).foldl (fun a c => 10 * a + (c.toNat - 48)) a
      = ds.foldl (fun a d => 10 * a + d) a := by
  induction ds with
  | nil => intro a; simp
  | cons d ds ih =>
      intro a
      have hd : (digitChar d).toNat = 48 + d := digitChar_toNat (h d (by simp))
      simp only [List.map_cons, List.foldl_cons, hd]
      have : 10 * a + (48 + d - 48) = 10 * a + d := by omega
      rw [this]
      exact ih (fun x hx => h x (by simp [hx])) _

theorem charsVal_map {ds : List ℕ} (h : ∀ d ∈ ds, d < 10) :
    charsVal (ds.map digitChar) = ofDigits ds := by
  unfold charsVal ofDigits
  exact charsVal_foldl_map h 0

theorem padDigits_lt (n k : ℕ) : ∀ d ∈ padDigits n k, d < 10 := by
  intro d hd
  rw [padDigits, List.mem_append] at hd
  rcases hd with hd | hd
  · have := List.eq_of_mem_replicate hd
    omega
  · exact natDigits_lt n d hd

theorem padDigits_length (n k : ℕ) : k + 1 ≤ (padDigits n k).length := by
  rw [padDigits, List.length_append, List.length_replicate]
  have : 1 ≤ (natDigits n).length := by
    cases h : natDigits n with
    | nil => exact absurd h (natDigits_ne_nil n)
    | cons a l => simp
  omega

theorem ofDigits_padDigits (n k : ℕ) : ofDigits (padDigits n k) = n := by
  rw [padDigits, ofDigits_replicate_zero, ofDigits_natDigits]

theorem fracPart_length (n k : ℕ) : (fracPart n k).length = k := by
  rw [fracPart, List.length_drop]
  have := padDigits_length n k
  omega

theorem intPart_length (n k : ℕ) :
    (intPart n k).length = (padDigits n k).length - k := by
  rw [intPart, List.length_take]
  have := padDigits_length n k
  omega

theorem intPart_ne_nil (n k : ℕ) : intPart n k ≠ [] := by
  intro h
  have h1 := intPart_length n k
  rw [h] at h1
  have h2 := padDigits_length n k
  simp at h1
  omega

theorem intPart_append_fracPart (n k : ℕ) :
    intPart n k ++ fracPart n k = padDigits n k := by
  rw [intPart, fracPart]
  exact List.take_append_drop _ _

theorem intPart_lt (n k : ℕ) : ∀ d ∈ intPart n k, d < 10 := by
  intro d hd
  exact padDigits_lt n k d (by
    rw [← intPart_append_fracPart n k, List.mem_append]
    exact Or.inl hd)

theorem fracPart_lt (n k : ℕ) : ∀ d ∈ fracPart n k, d < 10 := by
  intro d hd
  exact padDigits_lt n k d (by
    rw [← intPart_append_fracPart n k, List.mem_append]
    exact Or.inr hd)

theorem ofDigits_split (n k : ℕ) :
    ofDigits (intPart n k) * 10 ^ k + ofDigits (fracPart n k) = n := by
  have h := ofDigits_append (intPart n k) (fracPart n k)
  rw [intPart_append_fracPart, ofDigits_padDigits, fracPart_length] at h
  omega

theorem digitChar_facts {d : ℕ} (h : d < 10) :
    (digitChar d == '-') = false ∧ (digitChar d == '+') = false ∧
    (digitChar d).isWhitespace = false ∧ ('I' == digitChar d) = false ∧
    (digitChar d == '.') = false := by
  interval_cases d <;> decide

theorem infinity_not_prefix {ds : List ℕ} (h : ∀ d ∈ ds, d < 10)
    (hne : ds ≠ []) (rest : List Char) :
    charsPrefixOf "Infinity".data (ds.map digitChar ++ rest) = false := by
  cases ds with
  | nil => exact absurd rfl hne
  | cons d ds' =>
      have hI : "Infinity".data = 'I' :: "nfinity".data := rfl
      rw [hI]
      simp only [List.map_cons, List.cons_append, charsPrefixOf]
      have := (digitChar_facts (h d (by simp))).2.2.2.1
      simp [this]

theorem matchExpTail_nil : matchExpTail [] = true := rfl

theorem matchMantissa_flat {cs : List Char} (h : spanDigits cs = (cs, []))
    (hne : cs ≠ []) : matchMantissa cs = true := by
  simp only [matchMantissa, h]
  cases cs with
  | nil => exact absurd rfl hne
  | cons c cs' => simp [matchExpTail_nil]

theorem matchMantissa_dotted {ic fc : List Char}
    (hic : spanDigits (ic ++ '.' :: fc) = (ic, '.' :: fc))
    (hfc : spanDigits fc = (fc, [])) (hfne : fc ≠ []) :
    matchMantissa (ic ++ '.' :: fc) = true := by
  simp only [matchMantissa, hic, hfc]
  cases fc with
  | nil => exact absurd rfl hfne
  | cons c cs' => simp [matchExpTail_nil]

theorem matchMantissa_decChars (n k : ℕ) : matchMantissa (decChars n k) = true := by
  by_cases hk : k = 0
  · subst hk
    rw [decChars, if_pos rfl]
    exact matchMantissa_flat (spanDigits_map (natDigits_lt n))
      (by simp [natDigits_ne_nil n])
  · rw [decChars, if_neg hk]
    refine matchMantissa_dotted ?_ (spanDigits_map (fracPart_lt n k)) ?_
    · exact spanDigits_map_append (intPart_lt n k) (by decide) _
    · have := fracPart_length n k
      intro hcon
      rw [List.map_eq_nil] at hcon
      rw [hcon] at this
      simp at this
      omega

theorem parseExp_nil : parseExp [] = 0 := rfl

theorem charsVal_nil : charsVal [] = 0 := rfl

theorem parseFloatBody_flat (neg : Bool) {ds : List ℕ}
    (hds : ∀ d ∈ ds, d < 10) (hne : ds ≠ []) :
    parseFloatBody neg (ds.map digitChar)
      = .fin (if neg then -(ofDigits ds : ℚ) else (ofDigits ds : ℚ)) := by
  have hpre : charsPrefixOf "Infinity".data (ds.map digitChar) = false := by
    have := infinity_not_prefix hds hne []
    simpa using this
  have hmap_ne : ds.map digitChar ≠ [] := by simp [hne]
  simp only [parseFloatBody, hpre, Bool.false_eq_true, if_false,
    spanDigits_map hds]
  have hie : (ds.map digitChar).isEmpty = false := by
    cases h : ds.map digitChar with
    | nil => exact absurd h hmap_ne
    | cons a l => rfl
  simp only [hie, Bool.false_and, Bool.false_eq_true, if_false,
    charsVal_map hds, charsVal_nil, parseExp_nil]
  norm_num

theorem parseFloatBody_dotted (neg : Bool) (n k : ℕ) (hk : k ≠ 0) :
    parseFloatBody neg
        ((intPart n k).map digitChar ++ '.' :: (fracPart n k).map digitChar)
      = .fin (if neg then -((n : ℚ) / 10 ^ k) else ((n : ℚ) / 10 ^ k)) := by
  have hipne : intPart n k ≠ [] := intPart_ne_nil n k
  have hpre : charsPrefixOf "Infinity".data
      ((intPart n k).map digitChar ++ '.' :: (fracPart n k).map digitChar) = false :=
    infinity_not_prefix (intPart_lt n k) hipne _
  have hspan := spanDigits_map_append (intPart_lt n k) (show ('.').isDigit = false by decide)
    ((fracPart n k).map digitChar)
  simp only [parseFloatBody, hpre, Bool.false_eq_true, if_false, hspan]
  have hie : ((intPart n k).map digitChar).isEmpty = false := by
    cases h : (intPart n k).map digitChar with
    | nil =>
        rw [List.map_eq_nil] at h
        exact absurd h hipne
    | cons a l => rfl
  simp only [beq_self_eq_true, if_pos, spanDigits_map (fracPart_lt n k),
    hie, Bool.false_and, Bool.false_eq_true, if_false,
    charsVal_map (intPart_lt n k), charsVal_map (fracPart_lt n k),
    List.length_map, fracPart_length, parseExp_nil]
  have hsplit : ((ofDigits (intPart n k) : ℚ) * 10 ^ k + (ofDigits (fracPart n k) : ℚ))
      = (n : ℚ) := by
    have h1 : ((ofDigits (intPart n k) * 10 ^ k + ofDigits (fracPart n k) : ℕ) : ℚ)
        = (n : ℚ) := by
      exact_mod_cast ofDigits_split n k
    push_cast at h1
    linarith [h1]
  have h10 : (10 : ℚ) ^ k ≠ 0 := by positivity
  have hval : (ofDigits (intPart n k) : ℚ) + (ofDigits (fracPart n k) : ℚ) / 10 ^ k
      = (n : ℚ) / 10 ^ k := by
    field_simp
    linarith [hsplit]
  rw [zpow_zero, mul_one, hval]

theorem parseFloatBody_decChars (neg : Bool) (n k : ℕ) :
    parseFloatBody neg (decChars n k)
      = .fin (if neg then -((n : ℚ) / 10 ^ k) else ((n : ℚ) / 10 ^ k)) := by
  by_cases hk : k = 0
  · subst hk
    rw [decChars, if_pos rfl,
      parseFloatBody_flat neg (natDigits_lt n) (natDigits_ne_nil n),
      ofDigits_natDigits]
    norm_num
  · rw [decChars, if_neg hk]
    exact parseFloatBody_dotted neg n k hk

theorem decChars_head (n k : ℕ) :
    ∃ d rest, decChars n k = digitChar d :: rest ∧ d < 10 := by
  by_cases hk : k = 0
  · subst hk
    rw [decChars, if_pos rfl]
    cases h : natDigits n with
    | nil => exact absurd h (natDigits_ne_nil n)
    | cons d ds =>
        refine ⟨d, ds.map digitChar, by simp, ?_⟩
        exact natDigits_lt n d (by rw [h]; simp)
  · rw [decChars, if_neg hk]
    cases h : intPart n k with
    | nil => exact absurd h (intPart_ne_nil n k)
    | cons d ds =>
        refine ⟨d, ds.map digitChar ++ '.' :: (fracPart n k).map digitChar, by simp, ?_⟩
        exact intPart_lt n k d (by rw [h]; simp)

theorem matchBody_decChars (n k : ℕ) : matchBody (decChars n k) = true := by
  unfold matchBody
  rw [matchMantissa_decChars]
  simp

theorem matchSigned_decChars (n k : ℕ) : matchSigned (decChars n k) = true := by
  obtain ⟨d, rest, heq, hd⟩ := decChars_head n k
  rw [heq]
  have hne : (digitChar d == '-') = false := (digitChar_facts hd).1
  simp only [matchSigned, hne, Bool.false_eq_true, if_false]
  rw [← heq]
  exact matchBody_decChars n k

theorem stringify_data (m : ℤ) (k : ℕ) :
    (stringify m k).data = (if m < 0 then ['-'] else []) ++ decChars m.natAbs k := rfl

theorem isStringNumber_stringify (m : ℤ) (k : ℕ) :
    isStringNumber (stringify m k) = true := by
  unfold isStringNumber
  have hlen : (stringify m k).length
      = ((if m < 0 then ['-'] else []) ++ decChars m.natAbs k).length := rfl
  obtain ⟨d, rest, heq, hd⟩ := decChars_head m.natAbs k
  rw [Bool.and_eq_true, Bool.or_eq_true]
  constructor
  · rw [decide_eq_true_eq, hlen, List.length_append, heq]
    simp
  · right
    rw [stringify_data]
    by_cases hm : m < 0
    · rw [if_pos hm]
      show matchSigned ('-' :: decChars m.natAbs k) = true
      simp only [matchSigned]
      rw [if_pos (by decide)]
      exact matchBody_decChars m.natAbs k
    · rw [if_neg hm, List.nil_append]
      exact matchSigned_decChars m.natAbs k

theorem parseFloat_stringify (m : ℤ) (k : ℕ) :
    parseFloat (stringify m k) = .fin ((m : ℚ) / 10 ^ k) := by
  obtain ⟨d, rest, heq, hd⟩ := decChars_head m.natAbs k
  have hdw : (digitChar d).isWhitespace = false := (digitChar_facts hd).2.2.1
  by_cases hm : m < 0
  · have hdata : (stringify m k).data = '-' :: decChars m.natAbs k := by
      rw [stringify_data, if_pos hm]
      rfl
    have hdrop : ('-' :: decChars m.natAbs k).dropWhile Char.isWhitespace
        = '-' :: decChars m.natAbs k := by
      simp [List.dropWhile_cons]
    rw [parseFloat, hdata, hdrop]
    simp only [parseFloatSigned]
    rw [if_neg (by decide), if_pos (by decide), parseFloatBody_decChars]
    have habs : (m.natAbs : ℚ) = -(m : ℚ) := by
      have h1 : (m.natAbs : ℤ) = -m := by omega
      calc (m.natAbs : ℚ) = ((m.natAbs : ℤ) : ℚ) := (Int.cast_natCast m.natAbs).symm
        _ = ((-m : ℤ) : ℚ) := by rw [h1]
        _ = -(m : ℚ) := by push_cast; ring
    rw [if_pos rfl, habs]
    congr 1
    ring
  · have hdata : (stringify m k).data = decChars m.natAbs k := by
      rw [stringify_data, if_neg hm, List.nil_append]
    have hdrop : (decChars m.natAbs k).dropWhile Char.isWhitespace
        = decChars m.natAbs k := by
      rw [heq]
      simp [List.dropWhile_cons, hdw]
    rw [parseFloat, hdata, hdrop, heq]
    simp only [parseFloatSigned]
    rw [if_neg (by rw [(digitChar_facts hd).2.1]; simp),
      if_neg (by rw [(digitChar_facts hd).1]; simp), ← heq,
      parseFloatBody_decChars]
    have habs : (m.natAbs : ℚ) = (m : ℚ) := by
      have h1 : (m.natAbs : ℤ) = m := by omega
      calc (m.natAbs : ℚ) = ((m.natAbs : ℤ) : ℚ) := (Int.cast_natCast m.natAbs).symm
        _ = ((m : ℤ) : ℚ) := by rw [h1]
        _ = (m : ℚ) := by push_cast; ring
    rw [if_neg (by simp), habs]

/-! ### Characterization of `Result.merge` -/

/-- Specification-side view: the success values of a result sequence, in
their original order. -/
def okValues : List (Result α ε) → List α
  | [] => []
  | .ok v :: rs => v :: okValues rs
  | .fail _ :: rs => okValues rs

/-- Specification-side view: the errors of the failing elements, in their
original relative order, each tagged (via `addErrorIndex`) with the element's
index counted from `i`. -/
def failsFrom (addErrorIndex : ℕ → ε → ε) : ℕ → List (Result α ε) → List ε
  | _, [] => []
  | i, .ok _ :: rs => failsFrom addErrorIndex (i + 1) rs
  | i, .fail e :: rs => addErrorIndex i e :: failsFrom addErrorIndex (i + 1) rs

theorem mergeGo_ok (f : ℕ → ε → ε) :
    ∀ (rs : List (Result α ε)) (i : ℕ) (vs : List α),
    (∀ r ∈ rs, r.isOk = true) →
    Result.mergeGo f i (.ok vs) rs = .ok (vs ++ okValues rs) := by
  intro rs
  induction rs with
  | nil => intro i vs _; simp [Result.mergeGo, okValues]
  | cons r rest ih =>
      intro i vs h
      cases r with
      | ok v =>
          rw [Result.mergeGo, okValues]
          rw [ih (i + 1) (vs ++ [v]) (fun x hx => h x (by simp [hx]))]
          simp
      | fail e =>
          have := h (.fail e) (by simp)
          simp [Result.isOk] at this

theorem mergeGo_fail (f : ℕ → ε → ε) :
    ∀ (rs : List (Result α ε)) (i : ℕ) (es : List ε),
    Result.mergeGo f i (.fail es) rs = .fail (es ++ failsFrom f i rs) := by
  intro rs
  induction rs with
  | nil => intro i es; simp [Result.mergeGo, failsFrom]
  | cons r rest ih =>
      intro i es
      cases r with
      | ok v => rw [Result.mergeGo, failsFrom, ih]
      | fail e =>
          rw [Result.mergeGo, failsFrom, ih]
          simp

theorem mergeGo_mixed (f : ℕ → ε → ε) :
    ∀ (rs : List (Result α ε)) (i : ℕ) (vs : List α),
    (∃ r ∈ rs, r.isFail = true) →
    Result.mergeGo f i (.ok vs) rs = .fail (failsFrom f i rs) := by
  intro rs
  induction rs with
  | nil =>
      intro i vs h
      simp at h
  | cons r rest ih =>
      intro i vs h
      cases r with
      | ok v =>
          rw [Result.mergeGo, failsFrom]
          refine ih (i + 1) (vs ++ [v]) ?_
          rcases h with ⟨x, hx, hfail⟩
          rcases List.mem_cons.mp hx with rfl | hmem
          · simp [Result.isFail] at hfail
          · exact ⟨x, hmem, hfail⟩
      | fail e =>
          rw [Result.mergeGo, failsFrom, mergeGo_fail]
          simp

theorem failsFrom_length (f : ℕ → ε → ε) :
    ∀ (rs : List (Result α ε)) (i : ℕ),
    (failsFrom f i rs).length = (rs.filter (fun r => r.isFail)).length := by
  intro rs
  induction rs with
  | nil => intro i; rfl
  | cons r rest ih =>
      intro i
      cases r with
      | ok v => simp [failsFrom, List.filter_cons, Result.isFail, ih]
      | fail e => simp [failsFrom, List.filter_cons, Result.isFail, ih]

/-! ### Characterization of `Decoder.object` and `Decoder.dict` -/

/-- Specification-side view: the successfully decoded entries of a shape. -/
def objOks (shape : List (String × Decoder α)) (data : JsValue) : List (String × α) :=
  shape.filterMap (fun kd =>
    match kd.2 (getProp data kd.1) with
    | .ok v => some (kd.1, v)
    | .fail _ => none)

/-- Specification-side view: the per-key failures of a shape, one entry per
failing key, in shape order. -/
def objFails (shape : List (String × Decoder α)) (data : JsValue) :
    List (String × DecodeError) :=
  shape.filterMap (fun kd =>
    match kd.2 (getProp data kd.1) with
    | .ok _ => none
    | .fail e => some (kd.1, e))

theorem objectGo_spec (data : JsValue) :
    ∀ (shape : List (String × Decoder α)) (obj : List (String × α))
      (errors : List (String × DecodeError)),
    objectGo data shape obj errors =
      if (errors ++ objFails shape data).isEmpty then .ok (obj ++ objOks shape data)
      else .fail (.keyed (errors ++ objFails shape data)) := by
  intro shape
  induction shape with
  | nil =>
      intro obj errors
      simp only [objectGo, objOks, objFails, List.filterMap_nil, List.append_nil]
  | cons kd rest ih =>
      intro obj errors
      obtain ⟨key, d⟩ := kd
      cases hr : d (getProp data key) with
      | ok v =>
          have hoks : objOks ((key, d) :: rest) data = (key, v) :: objOks rest data := by
            simp [objOks, List.filterMap_cons, hr]
          have hfails : objFails ((key, d) :: rest) data = objFails rest data := by
            simp [objFails, List.filterMap_cons, hr]
          simp only [objectGo, hr, ih, hoks, hfails]
          simp
      | fail e =>
          have hoks : objOks ((key, d) :: rest) data = objOks rest data := by
            simp [objOks, List.filterMap_cons, hr]
          have hfails : objFails ((key, d) :: rest) data
              = (key, e) :: objFails rest data := by
            simp [objFails, List.filterMap_cons, hr]
          simp only [objectGo, hr, ih, hoks, hfails]
          simp

theorem objFails_nil_iff (shape : List (String × Decoder α)) (data : JsValue) :
    objFails shape data = [] ↔
      ∀ kd ∈ shape, (kd.2 (getProp data kd.1)).isOk = true := by
  rw [objFails, List.filterMap_eq_nil]
  constructor
  · intro h kd hkd
    have h2 := h kd hkd
    cases hr : kd.2 (getProp data kd.1) with
    | ok v => rfl
    | fail e =>
        simp only [hr] at h2
        simp at h2
  · intro h kd hkd
    have h2 := h kd hkd
    cases hr : kd.2 (getProp data kd.1) with
    | ok v => simp only [hr]
    | fail e =>
        simp only [hr, Result.isOk] at h2
        simp at h2

theorem objOks_keys (shape : List (String × Decoder α)) (data : JsValue) :
    (objOks shape data).map Prod.fst
      = ((shape.filter (fun kd => (kd.2 (getProp data kd.1)).isOk)).map Prod.fst) := by
  induction shape with
  | nil => rfl
  | cons kd rest ih =>
      cases hr : kd.2 (getProp data kd.1) with
      | ok v =>
          have hoks : objOks (kd :: rest) data = (kd.1, v) :: objOks rest data := by
            simp [objOks, List.filterMap_cons, hr]
          have hfilter : List.filter (fun kd => (kd.2 (getProp data kd.1)).isOk) (kd :: rest)
              = kd :: List.filter (fun kd => (kd.2 (getProp data kd.1)).isOk) rest := by
            simp [List.filter_cons, hr, Result.isOk]
          rw [hoks, hfilter, List.map_cons, List.map_cons, ih]
      | fail e =>
          have hoks : objOks (kd :: rest) data = objOks rest data := by
            simp [objOks, List.filterMap_cons, hr]
          have hfilter : List.filter (fun kd => (kd.2 (getProp data kd.1)).isOk) (kd :: rest)
              = List.filter (fun kd => (kd.2 (getProp data kd.1)).isOk) rest := by
            simp [List.filter_cons, hr, Result.isOk]
          rw [hoks, hfilter, ih]

theorem objFails_keys (shape : List (String × Decoder α)) (data : JsValue) :
    (objFails shape data).map Prod.fst
      = ((shape.filter (fun kd => (kd.2 (getProp data kd.1)).isFail)).map Prod.fst) := by
  induction shape with
  | nil => rfl
  | cons kd rest ih =>
      cases hr : kd.2 (getProp data kd.1) with
      | ok v =>
          have hfails : objFails (kd :: rest) data = objFails rest data := by
            simp [objFails, List.filterMap_cons, hr]
          have hfilter : List.filter (fun kd => (kd.2 (getProp data kd.1)).isFail) (kd :: rest)
              = List.filter (fun kd => (kd.2 (getProp data kd.1)).isFail) rest := by
            simp [List.filter_cons, hr, Result.isFail]
          rw [hfails, hfilter, ih]
      | fail e =>
          have hfails : objFails (kd :: rest) data = (kd.1, e) :: objFails rest data := by
            simp [objFails, List.filterMap_cons, hr]
          have hfilter : List.filter (fun kd => (kd.2 (getProp data kd.1)).isFail) (kd :: rest)
              = kd :: List.filter (fun kd => (kd.2 (getProp data kd.1)).isFail) rest := by
            simp [List.filter_cons, hr, Result.isFail]
          rw [hfails, hfilter, List.map_cons, List.map_cons, ih]

theorem objectGo_congr (data data2 : JsValue) :
    ∀ (shape : List (String × Decoder α)) (obj : List (String × α))
      (errors : List (String × DecodeError)),
    (∀ kd ∈ shape, getProp data2 kd.1 = getProp data kd.1) →
    objectGo data2 shape obj errors = objectGo data shape obj errors := by
  intro shape
  induction shape with
  | nil => intro obj errors _; rfl
  | cons kd rest ih =>
      intro obj errors h
      obtain ⟨key, d⟩ := kd
      have hk : getProp data2 key = getProp data key := h (key, d) (by simp)
      cases hr : d (getProp data key) with
      | ok v =>
          simp only [objectGo, hk, hr]
          exact ih _ _ (fun x hx => h x (by simp [hx]))
      | fail e =>
          simp only [objectGo, hk, hr]
          exact ih _ _ (fun x hx => h x (by simp [hx]))

/-- Specification-side view of `dict`: the per-key failures over a key list. -/
def dictFails (d : Decoder α) (data : JsValue) (keys : List String) :
    List (String × DecodeError) :=
  keys.filterMap (fun k =>
    match d (getProp data k) with
    | .ok _ => none
    | .fail e => some (k, e))

/-- Specification-side view of `dict`: the decoded entries over a key list. -/
def dictOks (d : Decoder α) (data : JsValue) (keys : List String) :
    List (String × α) :=
  keys.filterMap (fun k =>
    match d (getProp data k) with
    | .ok v => some (k, v)
    | .fail _ => none)

theorem dictGo_spec (d : Decoder α) (data : JsValue) :
    ∀ (keys : List String) (decoded : List (String × α))
      (errors : List (String × DecodeError)),
    dictGo d data keys decoded errors =
      if (errors ++ dictFails d data keys).isEmpty
      then .ok (decoded ++ dictOks d data keys)
      else .fail (.keyed (errors ++ dictFails d data keys)) := by
  intro keys
  induction keys with
  | nil =>
      intro decoded errors
      simp only [dictGo, dictOks, dictFails, List.filterMap_nil, List.append_nil]
  | cons key rest ih =>
      intro decoded errors
      cases hr : d (getProp data key) with
      | ok v =>
          have hoks : dictOks d data (key :: rest) = (key, v) :: dictOks d data rest := by
            simp [dictOks, List.filterMap_cons, hr]
          have hfails : dictFails d data (key :: rest) = dictFails d data rest := by
            simp [dictFails, List.filterMap_cons, hr]
          simp only [dictGo, hr, ih, hoks, hfails]
          simp
      | fail e =>
          have hoks : dictOks d data (key :: rest) = dictOks d data rest := by
            simp [dictOks, List.filterMap_cons, hr]
          have hfails : dictFails d data (key :: rest)
              = (key, e) :: dictFails d data rest := by
            simp [dictFails, List.filterMap_cons, hr]
          simp only [dictGo, hr, ih, hoks, hfails]
          simp

/-! ### `createOneOf` order lemma, and the early `or` iteration -/

theorem createOneOfGo_first_success (data : JsValue) :
    ∀ (ds1 : List (Decoder α)) (d : Decoder α) (ds2 : List (Decoder α))
      (errs : List DecodeError) (v : α),
    (∀ p ∈ ds1, (p data).isFail = true) → d data = .ok v →
    createOneOfGo data (ds1 ++ d :: ds2) errs = .ok v := by
  intro ds1
  induction ds1 with
  | nil =>
      intro d ds2 errs v _ hd
      simp only [List.nil_append, createOneOfGo, hd]
  | cons p ps ih =>
      intro d ds2 errs v h hd
      have hp := h p (by simp)
      cases hpd : p data with
      | ok w =>
          rw [hpd] at hp
          simp [Result.isFail] at hp
      | fail e =>
          simp only [List.cons_append, createOneOfGo, hpd]
          exact ih d ds2 _ v (fun x hx => h x (by simp [hx])) hd

/-- Model of JavaScript template-literal coercion of a value to a string.
It only appears inside the combined failure message of the early `or`
iteration, whose exact text no claim depends on; the number and structure
renderings are approximate. -/
def jsDisplay : JsValue → String
  | .undefinedVal => "undefined"
  | .null => "null"
  | .bool b => if b then "true" else "false"
  | .num .nan => "NaN"
  | .num .inf => "Infinity"
  | .num .negInf => "-Infinity"
  | .num (.fin q) => toString q
  | .str s => s
  | .arr _ => "[array]"
  | .obj _ => "[object Object]"

/-- A decoder of the early iteration `src/decoder.ts`, whose error type is a
plain string. -/
def DecoderS (α : Type) : Type := JsValue → Result α String

/-- `Decoder.or` (src/decoder.ts lines 113–132): try the receiver, then the
alternative against the same input; when both fail combine the two messages.
The TypeScript union result type is modelled with `⊕` (the source casts the
result). -/
def DecoderS.or (d1 : DecoderS α) (d2 : DecoderS β) : DecoderS (α ⊕ β) := fun data =>
  match d1 data with
  | .ok v => .ok (.inl v)
  | .fail e1 =>
      match d2 data with
      | .ok v => .ok (.inr v)
      | .fail e2 =>
          .fail ("Failed to parse " ++ jsDisplay data ++ ", got: " ++ e2 ++ ", and: " ++ e1)

/-! ### The tree-error iteration: `DecodeError` with `message`/`next`,
`renderError`, and the `NonEmptyArray` variant of `oneOf` -/

/-- `DecodeError` of the tree-error iteration (error.ts, part_003 line 1):
`{ message: string; next?: DecodeError[] }`.  An absent `next` field is
`none`; a present (possibly empty) array is `some` — `if (error.next)` is
JavaScript truthiness, under which `[]` is truthy. -/
inductive ErrTree : Type where
  | mk (message : String) (next : Option (List ErrTree)) : ErrTree

/-- The `message` field. -/
def ErrTree.message : ErrTree → String
  | .mk m _ => m

/-- The `next` field. -/
def ErrTree.next : ErrTree → Option (List ErrTree)
  | .mk _ nx => nx

/-- `addSpaces` (error.ts line 3): `' '.repeat(pad) + str`. -/
def addSpaces (pad : ℕ) (str : String) : String :=
  String.mk (List.replicate pad ' ') ++ str

/-- JavaScript `array.join('\n')`. -/
def joinNL : List String → String
  | [] => ""
  | [s] => s
  | s :: rest => s ++ "\n" ++ joinNL rest

mutual
/-- `createRenderer` (error.ts lines 5–13): a node with a `next` field
renders its message, a colon, and its children two more spaces deep; a node
without one renders just its padded message. -/
def createRenderer (pad : ℕ) : ErrTree → String
  | .mk m none => addSpaces pad m
  | .mk m (some cs) => addSpaces pad m ++ ":\n" ++ joinNL (renderEach (pad + 2) cs)

/-- `error.next.map(renderWithPadding)`. -/
def renderEach (pad : ℕ) : List ErrTree → List String
  | [] => []
  | c :: cs => createRenderer pad c :: renderEach pad cs
end

/-- `renderError` (error.ts lines 15–16): the constant header line followed
by the rendering of the tree at padding 2. -/
def renderError (error : ErrTree) : String :=
  "Error(s) decoding data:\n" ++ createRenderer 2 error

/-- A decoder of the tree-error iteration (second half of part_004). -/
def Decoder2 (α : Type) : Type := JsValue → Result α ErrTree

/-- The loop of `createOneOf` in the tree-error iteration (part_004 lines
730–747): each failing branch's error is prefixed with a bar and pushed onto
the children of a single `Not decoded since` error; the first OK is returned
immediately. -/
def createOneOf2Go (data : JsValue) :
    List (Decoder2 α) → List ErrTree → Result α ErrTree
  | [], acc => .fail (.mk "Not decoded since" (some acc))
  | d :: ds, acc =>
      match d data with
      | .ok v => .ok v
      | .fail e => createOneOf2Go data ds (acc ++ [.mk ("| " ++ e.message) e.next])

/-- `Decoder.createOneOf` of the tree-error iteration. -/
def createOneOf2 (decoders : List (Decoder2 α)) : Decoder2 α := fun data =>
  createOneOf2Go data decoders []

/-- `Decoder.oneOf` (part_004 lines 766–769): the parameter type
`NonEmptyArray<T>` restricts callers to at least one branch at construction
time; the constraint is modelled by the nonemptiness hypothesis. -/
def oneOf2 (decoders : List (Decoder2 α)) (hne : decoders ≠ []) : Decoder2 α :=
  createOneOf2 decoders

theorem createOneOf2Go_ok (data : JsValue) :
    ∀ (ds : List (Decoder2 α)) (acc : List ErrTree) (v : α),
    createOneOf2Go data ds acc = .ok v → ∃ d ∈ ds, d data = .ok v := by
  intro ds
  induction ds with
  | nil =>
      intro acc v h
      simp [createOneOf2Go] at h
  | cons d rest ih =>
      intro acc v h
      cases hd : d data with
      | ok w =>
          simp only [createOneOf2Go, hd] at h
          cases h
          exact ⟨d, by simp, hd⟩
      | fail e =>
          simp only [createOneOf2Go, hd] at h
          rcases ih _ v h with ⟨p, hp, hpv⟩
          exact ⟨p, by simp [hp], hpv⟩

theorem createOneOf2Go_all_fail (data : JsValue) :
    ∀ (ds : List (Decoder2 α)) (acc : List ErrTree),
    (∀ d ∈ ds, (d data).isFail = true) →
    ∃ es, createOneOf2Go data ds acc = .fail (.mk "Not decoded since" (some es))
      ∧ es.length = acc.length + ds.length := by
  intro ds
  induction ds with
  | nil =>
      intro acc _
      exact ⟨acc, rfl, by simp⟩
  | cons d rest ih =>
      intro acc h
      cases hd : d data with
      | ok w =>
          have := h d (by simp)
          rw [hd] at this
          simp [Result.isFail] at this
      | fail e =>
          simp only [createOneOf2Go, hd]
          rcases ih (acc ++ [.mk ("| " ++ e.message) e.next])
              (fun x hx => h x (by simp [hx])) with ⟨es, heq, hlen⟩
          refine ⟨es, heq, ?_⟩
          rw [hlen]
          simp
          omega

/-! ### The rendered lines of `createRenderer`, and the pre-order message
lines -/

theorem strData_append (a b : String) : (a ++ b).data = a.data ++ b.data := rfl

theorem strExt {a b : String} (h : a.data = b.data) : a = b := by
  cases a
  cases b
  exact congrArg String.mk h

theorem strAppend_assoc (a b c : String) : a ++ b ++ c = a ++ (b ++ c) := by
  apply strExt
  simp [strData_append]

theorem strAppend_empty (s : String) : s ++ "" = s := by
  apply strExt
  show s.data ++ ([] : List Char) = s.data
  simp

theorem joinNL_cons (s : String) {rest : List String} (h : rest ≠ []) :
    joinNL (s :: rest) = s ++ "\n" ++ joinNL rest := by
  cases rest with
  | nil => exact absurd rfl h
  | cons t ts => rfl

theorem joinNL_append {xs ys : List String} (hx : xs ≠ []) (hy : ys ≠ []) :
    joinNL (xs ++ ys) = joinNL xs ++ "\n" ++ joinNL ys := by
  induction xs with
  | nil => exact absurd rfl hx
  | cons s xs ih =>
      cases xs with
      | nil =>
          rw [show (([s] : List String) ++ ys) = s :: ys by simp, joinNL_cons s hy]
          rfl
      | cons t ts =>
          rw [List.cons_append, joinNL_cons s (by simp),
            joinNL_cons s (show t :: ts ≠ [] by simp), ih (by simp)]
          apply strExt
          simp [strData_append]

mutual
/-- The individual output lines of `createRenderer pad`: each node
contributes its padded message (with a colon when `next` is present),
followed by its children's lines; a present-but-empty `next` contributes one
extra empty line (the `join` over an empty array). -/
def renderLines (pad : ℕ) : ErrTree → List String
  | .mk m none => [addSpaces pad m]
  | .mk m (some cs) =>
      (addSpaces pad m ++ ":") :: (if cs.isEmpty then [""] else linesEach (pad + 2) cs)

/-- Lines of a list of children. -/
def linesEach (pad : ℕ) : List ErrTree → List String
  | [] => []
  | c :: cs => renderLines pad c ++ linesEach pad cs
end

mutual
/-- Pre-order message lines: each node contributes exactly one line, its
message indented by two spaces per nesting level starting at two (internal
nodes carry a colon suffix), followed by its children's lines depth-first. -/
def msgLines (depth : ℕ) : ErrTree → List String
  | .mk m none => [addSpaces (2 * (depth + 1)) m]
  | .mk m (some cs) =>
      (addSpaces (2 * (depth + 1)) m ++ ":") :: msgEach (depth + 1) cs

/-- Pre-order message lines of a list of children. -/
def msgEach (depth : ℕ) : List ErrTree → List String
  | [] => []
  | c :: cs => msgLines depth c ++ msgEach depth cs
end

theorem renderLines_ne_nil (pad : ℕ) (e : ErrTree) : renderLines pad e ≠ [] := by
  cases e with
  | mk m nx => cases nx <;> simp [renderLines]

theorem renderEach_ne_nil (pad : ℕ) {cs : List ErrTree} (h : cs ≠ []) :
    renderEach pad cs ≠ [] := by
  cases cs with
  | nil => exact absurd rfl h
  | cons c cs' => simp [renderEach]

theorem linesEach_ne_nil (pad : ℕ) {cs : List ErrTree} (h : cs ≠ []) :
    linesEach pad cs ≠ [] := by
  cases cs with
  | nil => exact absurd rfl h
  | cons c cs' =>
      simp only [linesEach]
      intro hcon
      rcases List.append_eq_nil.mp hcon with ⟨h1, _⟩
      exact renderLines_ne_nil pad c h1

mutual
theorem createRenderer_joinNL (pad : ℕ) (e : ErrTree) :
    createRenderer pad e = joinNL (renderLines pad e) := by
  cases e with
  | mk m nx =>
      cases nx with
      | none => rfl
      | some cs =>
          cases cs with
          | nil =>
              show addSpaces pad m ++ ":\n" ++ joinNL (renderEach (pad + 2) [])
                = joinNL (renderLines pad (.mk m (some [])))
              rw [show renderEach (pad + 2) ([] : List ErrTree) = [] from rfl]
              rw [show renderLines pad (ErrTree.mk m (some [])) =
                [addSpaces pad m ++ ":", ""] by simp [renderLines]]
              rw [joinNL_cons _ (by simp)]
              show addSpaces pad m ++ ":\n" ++ "" = addSpaces pad m ++ ":" ++ "\n" ++ joinNL [""]
              apply strExt
              simp [strData_append, show joinNL [""] = "" from rfl]
          | cons c cs' =>
              show addSpaces pad m ++ ":\n" ++ joinNL (renderEach (pad + 2) (c :: cs'))
                = joinNL (renderLines pad (.mk m (some (c :: cs'))))
              rw [show renderLines pad (ErrTree.mk m (some (c :: cs'))) =
                (addSpaces pad m ++ ":") :: linesEach (pad + 2) (c :: cs') by
                  simp [renderLines]]
              rw [joinNL_cons _ (linesEach_ne_nil _ (by simp)),
                renderEach_joinNL (pad + 2) (c :: cs') (by simp)]
              apply strExt
              simp [strData_append]
termination_by sizeOf e

theorem renderEach_joinNL (pad : ℕ) (cs : List ErrTree) (h : cs ≠ []) :
    joinNL (renderEach pad cs) = joinNL (linesEach pad cs) := by
  cases cs with
  | nil => exact absurd rfl h
  | cons c cs' =>
      cases cs' with
      | nil =>
          show joinNL [createRenderer pad c] = joinNL (renderLines pad c ++ linesEach pad [])
          rw [show linesEach pad ([] : List ErrTree) = [] from rfl, List.append_nil]
          show createRenderer pad c = joinNL (renderLines pad c)
          exact createRenderer_joinNL pad c
      | cons t ts =>
          show joinNL (createRenderer pad c :: renderEach pad (t :: ts))
            = joinNL (renderLines pad c ++ linesEach pad (t :: ts))
          rw [joinNL_cons _ (renderEach_ne_nil pad (by simp)),
            joinNL_append (renderLines_ne_nil pad c) (linesEach_ne_nil pad (by simp)),
            createRenderer_joinNL pad c, renderEach_joinNL pad (t :: ts) (by simp)]
termination_by sizeOf cs
end

theorem addSpaces_ne_empty {pad : ℕ} (hp : 0 < pad) (m : String) :
    addSpaces pad m ≠ "" := by
  intro h
  have h2 := congrArg String.data h
  rw [show (addSpaces pad m).data = List.replicate pad ' ' ++ m.data from rfl,
    show ("" : String).data = [] from rfl] at h2
  have h3 := congrArg List.length h2
  simp at h3
  omega

theorem addSpaces_colon_ne_empty {pad : ℕ} (hp : 0 < pad) (m : String) :
    addSpaces pad m ++ ":" ≠ "" := by
  intro h
  have h2 := congrArg String.data h
  rw [strData_append,
    show (addSpaces pad m).data = List.replicate pad ' ' ++ m.data from rfl,
    show ("" : String).data = [] from rfl] at h2
  have h3 := congrArg List.length h2
  simp at h3

mutual
theorem filter_renderLines (d : ℕ) (e : ErrTree) :
    (renderLines (2 * (d + 1)) e).filter (fun s => decide (s ≠ "")) = msgLines d e := by
  cases e with
  | mk m nx =>
      cases nx with
      | none =>
          have hne : addSpaces (2 * (d + 1)) m ≠ "" := addSpaces_ne_empty (by omega) m
          simp [renderLines, msgLines, List.filter_cons, hne]
      | some cs =>
          have hne : addSpaces (2 * (d + 1)) m ++ ":" ≠ "" :=
            addSpaces_colon_ne_empty (by omega) m
          cases cs with
          | nil =>
              simp [renderLines, msgLines, msgEach, List.filter_cons, hne]
          | cons c cs' =>
              have harith : 2 * (d + 1) + 2 = 2 * ((d + 1) + 1) := by ring
              show ((addSpaces (2 * (d + 1)) m ++ ":") ::
                  (if (c :: cs').isEmpty then [""] else linesEach (2 * (d + 1) + 2) (c :: cs'))).filter
                  (fun s => decide (s ≠ ""))
                = msgLines d (.mk m (some (c :: cs')))
              rw [show (c :: cs').isEmpty = false from rfl, if_neg (by simp),
                List.filter_cons, if_pos (by simpa using hne), harith,
                filter_linesEach (d + 1) (c :: cs')]
              rfl
termination_by sizeOf e

theorem filter_linesEach (d : ℕ) (cs : List ErrTree) :
    (linesEach (2 * (d + 1)) cs).filter (fun s => decide (s ≠ "")) = msgEach d cs := by
  cases cs with
  | nil => rfl
  | cons c cs' =>
      show (renderLines (2 * (d + 1)) c ++ linesEach (2 * (d + 1)) cs').filter
          (fun s => decide (s ≠ ""))
        = msgLines d c ++ msgEach d cs'
      rw [List.filter_append, filter_renderLines d c, filter_linesEach d cs']
termination_by sizeOf cs
end

/-- `Decoder.string` (decoder.ts lines 365–369). -/
def Decoder.string : Decoder String := fun data =>
  match data with
  | .str s => .ok s
  | _ => .fail (makeSingleError "Not a string" data)

theorem ownKeys_arr (elems : List JsValue) :
    ownKeys (.arr elems) = (List.range elems.length).map natStr := rfl

theorem dictFails_arr_nil (d : Decoder α) (xs : List JsValue)
    (h : ∀ x ∈ xs, (d x).isOk = true) :
    dictFails d (.arr xs) (ownKeys (.arr xs)) = [] := by
  rw [dictFails, List.filterMap_eq_nil]
  intro k hk
  rw [ownKeys_arr] at hk
  rcases List.mem_map.mp hk with ⟨i, hi, rfl⟩
  have hlt : i < xs.length := List.mem_range.mp hi
  rw [getProp_arr_natStr xs i hlt]
  have hmem : xs.getD i .undefinedVal ∈ xs := by
    rw [List.getD_eq_getElem xs .undefinedVal hlt]
    exact List.getElem_mem hlt
  have hok := h _ hmem
  cases hr : d (xs.getD i .undefinedVal) with
  | ok v => simp only [hr]
  | fail e =>
      rw [hr] at hok
      simp [Result.isOk] at hok

/-! ## The claims -/

/-- C1: `createOneOf` (and the two-branch `or`) try the decoders in strict
left-to-right order against the same input; once the decoders before `d` all
fail and `d` succeeds with `v`, the whole alternation returns `d`'s OK result,
for every choice of later branches `ds2` (so no later decoder can influence —
or need be invoked for — the result); `or` likewise returns the first
branch's success untouched. -/
theorem oneOf_or_first_success_short_circuit {α β γ : Type} :
    (∀ (ds1 : List (Decoder α)) (d : Decoder α) (ds2 : List (Decoder α))
       (data : JsValue) (v : α),
      (∀ p ∈ ds1, (p data).isFail = true) → d data = .ok v →
      createOneOf (ds1 ++ d :: ds2) data = .ok v)
    ∧ (∀ (d1 : DecoderS β) (d2 : DecoderS γ) (data : JsValue) (v : β),
      d1 data = .ok v → DecoderS.or d1 d2 data = .ok (.inl v)) := by
  constructor
  · intro ds1 d ds2 data v h hd
    exact createOneOfGo_first_success data ds1 d ds2 [] v h hd
  · intro d1 d2 data v h
    simp only [DecoderS.or, h]

/-- Witness for C1 at concrete inputs: the failing first branch is skipped,
the succeeding middle branch is returned, the trailing branch is ignored. -/
theorem oneOf_or_first_success_short_circuit_witness :
    createOneOf [Decoder.fail "no", Decoder.ok (7 : ℕ), Decoder.fail "later"] .null
      = .ok 7
    ∧ DecoderS.or (fun _ => .ok (1 : ℕ)) (fun _ => (.fail "x" : Result ℕ String)) .null
      = .ok (.inl 1) := by
  constructor
  · exact (@oneOf_or_first_success_short_circuit ℕ ℕ ℕ).1 [Decoder.fail "no"] (Decoder.ok 7)
      [Decoder.fail "later"] .null 7
      (by
        intro p hp
        simp at hp
        subst hp
        rfl)
      rfl
  · exact (@oneOf_or_first_success_short_circuit ℕ ℕ ℕ).2 (fun _ => .ok (1 : ℕ))
      (fun _ => (.fail "x" : Result ℕ String)) .null 1 rfl

/-- C2: `Result.merge` returns OK of all the success values in order exactly
when every element is OK; otherwise it fails with one index-tagged entry per
failing element, in the failing elements' original relative order (OK values
after the first failure are discarded — only the error list survives). -/
theorem merge_collects_all_failures {α ε : Type}
    (rs : List (Result α ε)) (f : ℕ → ε → ε) :
    ((∀ r ∈ rs, r.isOk = true) → Result.merge rs f = .ok (okValues rs))
    ∧ ((∃ r ∈ rs, r.isFail = true) → Result.merge rs f = .fail (failsFrom f 0 rs))
    ∧ (failsFrom f 0 rs).length = (rs.filter (fun r => r.isFail)).length := by
  refine ⟨?_, ?_, failsFrom_length f rs 0⟩
  · intro h
    rw [Result.merge, mergeGo_ok f rs 0 [] h, List.nil_append]
  · intro h
    rw [Result.merge, mergeGo_mixed f rs 0 [] h]

/-- Witness for C2 on a mixed sequence: both failures are reported with their
original indices, the interleaved OK values are discarded. -/
theorem merge_collects_all_failures_witness :
    Result.merge [Result.ok (1 : ℕ), Result.fail (10 : ℕ), Result.ok 2, Result.fail 20]
      (fun i e => i * 100 + e) = .fail [110, 320] := by
  have h := (merge_collects_all_failures
      [Result.ok (1 : ℕ), Result.fail (10 : ℕ), Result.ok 2, Result.fail 20]
      (fun i e => i * 100 + e)).2.1 ⟨Result.fail 10, by simp, rfl⟩
  rw [h]
  rfl

/-- C4: `then` re-runs the dependent decoder `f v` against the original
input (not against the decoded value), and passes a failure of the
underlying decoder through unchanged. -/
theorem then_reruns_dependent_on_original_input {α β : Type}
    (d : Decoder α) (f : α → Decoder β) (data : JsValue) :
    (∀ v, d data = .ok v → Decoder.thenD d f data = f v data)
    ∧ (∀ e, d data = .fail e → Decoder.thenD d f data = .fail e) := by
  constructor
  · intro v h
    simp only [Decoder.thenD, h]
  · intro e h
    simp only [Decoder.thenD, h]

/-- Witness for C4: chaining the number decoder into the string decoder
decodes the original string input `"5"` (which the string decoder accepts),
not the extracted number 5 (which it would reject); a failing underlying
decoder short-circuits with its own error. -/
theorem then_reruns_dependent_on_original_input_witness :
    Decoder.thenD Decoder.number (fun _ => Decoder.string) (.str "5") = .ok "5"
    ∧ Decoder.thenD Decoder.number (fun _ => Decoder.string) .null
      = .fail (makeSingleError "Not a number" .null) := by
  constructor
  · have h := (then_reruns_dependent_on_original_input Decoder.number
      (fun _ => Decoder.string) (.str "5")).1 (parseFloat "5") rfl
    rw [h]
    rfl
  · exact (then_reruns_dependent_on_original_input Decoder.number
      (fun _ => Decoder.string) .null).2 (makeSingleError "Not a number" .null) rfl

/-- C8: `run` yields exactly one of the two outcomes (never both, and its
total function model cannot throw or diverge), while `guard` returns the
decoded value exactly when `run` succeeds and otherwise raises exactly one
`ValidationFailedError` wrapping the full structured error. -/
theorem run_two_outcomes_guard_wraps {α : Type} (d : Decoder α) (data : JsValue) :
    ((∃ v, Decoder.run d data = .ok v) ∨ (∃ e, Decoder.run d data = .fail e))
    ∧ (∀ v e, ¬(Decoder.run d data = .ok v ∧ Decoder.run d data = .fail e))
    ∧ (∀ v, Decoder.guard d data = .ok v ↔ Decoder.run d data = .ok v)
    ∧ (∀ e, Decoder.guard d data = .error ⟨e⟩ ↔ Decoder.run d data = .fail e) := by
  cases h : d data with
  | ok v =>
      refine ⟨Or.inl ⟨v, h⟩, ?_, ?_, ?_⟩
      · intro w e hcon
        rw [Decoder.run, h] at hcon
        obtain ⟨h1, h2⟩ := hcon
        rw [h1] at h2
        exact Result.noConfusion h2
      · intro w
        rw [Decoder.run, Decoder.guard, h]
        constructor
        · intro hw
          cases hw
          rfl
        · intro hw
          cases hw
          rfl
      · intro e
        rw [Decoder.run, Decoder.guard, h]
        constructor
        · intro hw
          exact Except.noConfusion hw
        · intro hw
          exact Result.noConfusion hw
  | fail e =>
      refine ⟨Or.inr ⟨e, h⟩, ?_, ?_, ?_⟩
      · intro w e2 hcon
        rw [Decoder.run, h] at hcon
        obtain ⟨h1, _⟩ := hcon
        exact Result.noConfusion h1
      · intro w
        rw [Decoder.run, Decoder.guard, h]
        constructor
        · intro hw
          exact Except.noConfusion hw
        · intro hw
          exact Result.noConfusion hw
      · intro e2
        rw [Decoder.run, Decoder.guard, h]
        constructor
        · intro hw
          cases hw
          rfl
        · intro hw
          cases hw
          rfl

/-- Witness for C8: `guard` on a failing input raises the wrapper carrying
the structured error that `run` reports. -/
theorem run_two_outcomes_guard_wraps_witness :
    Decoder.guard Decoder.number .null
      = .error ⟨makeSingleError "Not a number" .null⟩ := by
  exact ((run_two_outcomes_guard_wraps Decoder.number .null).2.2.2
    (makeSingleError "Not a number" .null)).mpr rfl

/-- C3: on a non-null object input, `object` runs every declared key's
decoder: it succeeds exactly when no key fails, producing a record whose keys
are exactly the shape's (successfully decoded) keys in shape order; when one
or more keys fail it fails with a keyed composite error holding one child per
failing key; and the result only depends on the input's values at the
declared keys, so extra input keys neither appear nor cause errors. -/
theorem object_runs_every_key_collects_failures {α : Type}
    (shape : List (String × Decoder α)) (data : JsValue)
    (hobj : isObjectLike data = true) :
    (objFails shape data = [] ↔ ∀ kd ∈ shape, (kd.2 (getProp data kd.1)).isOk = true)
    ∧ (objFails shape data = [] → Decoder.object shape data = .ok (objOks shape data))
    ∧ ((objOks shape data).map Prod.fst
        = (shape.filter (fun kd => (kd.2 (getProp data kd.1)).isOk)).map Prod.fst)
    ∧ (objFails shape data ≠ [] →
        Decoder.object shape data = .fail (.keyed (objFails shape data)))
    ∧ ((objFails shape data).map Prod.fst
        = (shape.filter (fun kd => (kd.2 (getProp data kd.1)).isFail)).map Prod.fst)
    ∧ (∀ data2, isObjectLike data2 = true →
        (∀ kd ∈ shape, getProp data2 kd.1 = getProp data kd.1) →
        Decoder.object shape data2 = Decoder.object shape data) := by
  have hbody : Decoder.object shape data = objectGo data shape [] [] := by
    simp only [Decoder.object, hobj, if_true]
  refine ⟨objFails_nil_iff shape data, ?_, objOks_keys shape data, ?_,
    objFails_keys shape data, ?_⟩
  · intro h
    rw [hbody, objectGo_spec, List.nil_append, List.nil_append, h]
    simp
  · intro h
    rw [hbody, objectGo_spec, List.nil_append, List.nil_append]
    rw [if_neg (by simpa [List.isEmpty_iff] using h)]
  · intro data2 h2 hsame
    rw [hbody]
    simp only [Decoder.object, h2, if_true]
    exact objectGo_congr data data2 shape [] [] hsame

/-- Witness for C3: a one-key shape on an object carrying an extra key
succeeds with exactly the declared key, and a shape with a failing key
reports that key in the composite error. -/
theorem object_runs_every_key_collects_failures_witness :
    Decoder.object [("a", Decoder.number)]
        (.obj [("a", .num (.fin 5)), ("extra", .str "z")])
      = .ok [("a", JSNumber.fin 5)]
    ∧ Decoder.object [("a", Decoder.number), ("b", Decoder.number)]
        (.obj [("a", .str "nope"), ("b", .num (.fin 2))])
      = .fail (.keyed [("a", makeSingleError "Not a number" (.str "nope"))]) := by
  constructor
  · have h := (object_runs_every_key_collects_failures
      [("a", Decoder.number)] (.obj [("a", .num (.fin 5)), ("extra", .str "z")])
      rfl).2.1 rfl
    rw [h]
    rfl
  · have hfails : objFails [("a", Decoder.number), ("b", Decoder.number)]
        (.obj [("a", .str "nope"), ("b", .num (.fin 2))])
      = [("a", makeSingleError "Not a number" (.str "nope"))] := rfl
    have h := (object_runs_every_key_collects_failures
      [("a", Decoder.number), ("b", Decoder.number)]
      (.obj [("a", .str "nope"), ("b", .num (.fin 2))]) rfl).2.2.2.1 (by
        rw [hfails]
        simp)
    rw [h, hfails]

/-- C5: the number decoder maps every finite number to itself, and maps the
canonical decimal rendering of every finite number `m / 10^k` back to that
same number. -/
theorem number_accepts_finite_and_canonical_rendering :
    (∀ q : ℚ, Decoder.number (.num (.fin q)) = .ok (.fin q))
    ∧ ∀ (m : ℤ) (k : ℕ),
      Decoder.number (.str (stringify m k)) = .ok (.fin ((m : ℚ) / 10 ^ k)) := by
  constructor
  · intro q
    rfl
  · intro m k
    simp only [Decoder.number, isStringNumber_stringify m k, if_true,
      parseFloat_stringify m k]

/-- C6 counterexample: the number decoder accepts negative infinity and
`timestamp` accepts it as well (`isInteger` only rules out positive
`Infinity`), although the claim requires every infinite value to be
rejected. -/
theorem timestamp_accepts_negative_infinity :
    Decoder.number (.num .negInf) = .ok .negInf
    ∧ Decoder.timestamp (.num .negInf) = .ok .negInf :=
  ⟨rfl, rfl⟩

/-- C6 (amended): `timestamp` succeeds with `v` exactly when the number
decoder succeeds with `v` and `v` passes `isInteger`, i.e. `Math.floor(v) ===
v` and `v` is not positive `Infinity`; NaN and `Infinity` are rejected, but
negative infinity is accepted since the check only excludes `Infinity`. -/
theorem timestamp_is_integer_not_posinf (data : JsValue) (v : JSNumber) :
    Decoder.timestamp data = .ok v ↔
      (Decoder.number data = .ok v
        ∧ jsEq (jsFloor v) v = true ∧ jsEq v .inf = false) := by
  show Decoder.satisfy Decoder.number isInteger (some "Not a timestamp") data = .ok v ↔ _
  rw [Decoder.satisfy]
  cases hn : Decoder.number data with
  | fail e =>
      simp only [Decoder.thenD, hn]
      constructor
      · intro h
        exact Result.noConfusion h
      · intro h
        exact Result.noConfusion h.1
  | ok w =>
      simp only [Decoder.thenD, hn]
      by_cases hi : isInteger w = true
      · simp only [hi, if_true, Decoder.ok]
        constructor
        · intro h
          cases h
          refine ⟨rfl, ?_, ?_⟩
          · have := hi
            rw [isInteger, Bool.and_eq_true] at this
            exact this.1
          · have := hi
            rw [isInteger, Bool.and_eq_true, Bool.not_eq_true'] at this
            exact this.2
        · intro ⟨h1, _, _⟩
          cases h1
          rfl
      · rw [if_neg hi]
        simp only [Decoder.fail]
        constructor
        · intro h
          exact Result.noConfusion h
        · intro ⟨h1, h2, h3⟩
          cases h1
          rw [isInteger, Bool.and_eq_true, Bool.not_eq_true'] at hi
          exact absurd ⟨h2, h3⟩ hi

/-- Witness for C6 (amended) at a concrete integer: `timestamp` accepts 3. -/
theorem timestamp_is_integer_not_posinf_witness :
    Decoder.timestamp (.num (.fin 3)) = .ok (.fin 3) := by
  exact (timestamp_is_integer_not_posinf (.num (.fin 3)) (.fin 3)).mpr
    ⟨rfl, by decide, rfl⟩

/-- C7: `oneOf` (the `NonEmptyArray` variant) cannot be built from an empty
list of branches — the constraint is part of its type, modelled as the
nonemptiness hypothesis — and the decoder it builds never produces a value
except one produced by a branch, and when every branch fails it reports a
`Not decoded since` DecodeError carrying exactly one child per branch (never
an empty alternation error and never a silently produced value). -/
theorem oneOf_nonempty_contract {α : Type}
    (ds : List (Decoder2 α)) (hne : ds ≠ []) (data : JsValue) :
    (∀ v, oneOf2 ds hne data = .ok v → ∃ d ∈ ds, d data = .ok v)
    ∧ ((∀ d ∈ ds, (d data).isFail = true) →
        ∃ es, oneOf2 ds hne data = .fail (.mk "Not decoded since" (some es))
          ∧ es.length = ds.length ∧ es ≠ []) := by
  constructor
  · intro v h
    exact createOneOf2Go_ok data ds [] v h
  · intro h
    rcases createOneOf2Go_all_fail data ds [] h with ⟨es, heq, hlen⟩
    refine ⟨es, heq, ?_, ?_⟩
    · simpa using hlen
    · intro hcon
      rw [hcon] at hlen
      simp at hlen
      cases ds with
      | nil => exact hne rfl
      | cons d rest => simp at hlen

/-- Witness for C7: a singleton alternation whose branch fails reports one
child. -/
theorem oneOf_nonempty_contract_witness :
    ∃ es, oneOf2 [fun _ => (.fail (.mk "nope" none) : Result ℕ ErrTree)] (by simp) .null
        = .fail (.mk "Not decoded since" (some es))
      ∧ es.length = 1 ∧ es ≠ [] := by
  have h := (oneOf_nonempty_contract
      [fun _ => (.fail (.mk "nope" none) : Result ℕ ErrTree)] (by simp) .null).2 (by
        intro d hd
        simp at hd
        subst hd
        rfl)
  simpa using h

/-- C9: `renderError` is a pure function whose output is the constant header
line followed by the rendered lines of the tree, and those lines list the
tree's messages depth-first in pre-order with exactly two additional spaces
of indentation per nesting level (each node contributes exactly one message
line; a node with a present-but-empty child array additionally contributes
an empty filler line, which carries no message).  Being a function of the
tree alone, the rendering of structurally identical trees is
character-for-character identical. -/
theorem renderError_header_preorder_indent (e : ErrTree) :
    renderError e = joinNL ("Error(s) decoding data:" :: renderLines 2 e)
    ∧ (renderLines 2 e).filter (fun s => decide (s ≠ "")) = msgLines 0 e := by
  constructor
  · rw [joinNL_cons _ (renderLines_ne_nil 2 e), ← createRenderer_joinNL 2 e]
    show "Error(s) decoding data:\n" ++ createRenderer 2 e
      = "Error(s) decoding data:" ++ "\n" ++ createRenderer 2 e
    apply strExt
    rw [strData_append, strData_append, strData_append]
    rfl
  · have h20 : (2 : ℕ) = 2 * (0 + 1) := by norm_num
    rw [h20]
    exact filter_renderLines 0 e

/-- C10: the structural input check `typeof data === 'object' && data !==
null` lets arrays through: `object` with an empty shape succeeds on any array
with the empty record, `dict` traverses an array's index keys as a mapping
(succeeding whenever every element decodes), and `field` projects out of an
array like out of any object instead of failing with `Not an object`. -/
theorem structural_decoders_accept_arrays {α : Type} :
    (∀ xs : List JsValue,
      Decoder.object ([] : List (String × Decoder α)) (.arr xs) = .ok [])
    ∧ (∀ (d : Decoder α) (xs : List JsValue),
        (∀ x ∈ xs, (d x).isOk = true) → (Decoder.dict d (.arr xs)).isOk = true)
    ∧ (∀ (key : String) (d : Decoder α) (xs : List JsValue),
        Decoder.field key d (.arr xs)
          = Result.mapError (fun e => .keyed [(key, e)]) (d (getProp (.arr xs) key))) := by
  refine ⟨?_, ?_, ?_⟩
  · intro xs
    rfl
  · intro d xs h
    have hobj : isObjectLike (.arr xs) = true := rfl
    have hfails := dictFails_arr_nil d xs h
    show (Decoder.dict d (.arr xs)).isOk = true
    simp only [Decoder.dict, hobj, if_true, dictGo_spec, List.nil_append, hfails]
    simp [Result.isOk]
  · intro key d xs
    rfl

/-- Witness for C10: `dict` over the number decoder decodes the two-element
array as the mapping of its indices. -/
theorem structural_decoders_accept_arrays_witness :
    (Decoder.dict Decoder.number (.arr [.num (.fin 1), .num (.fin 2)])).isOk = true := by
  exact (@structural_decoders_accept_arrays JSNumber).2.1 Decoder.number
    [.num (.fin 1), .num (.fin 2)] (by
      intro x hx
      simp at hx
      rcases hx with rfl | rfl <;> rfl)

end DecoderLib
